import Mathlib

/-!
Verification of the content-addressable git object store (blob and tree
objects) implemented in src/src/main.rs.

Bytes and Unicode code points are both modelled as natural numbers.  A Rust
Vec of u8 becomes a list of naturals, a Rust String becomes the list of the
code points of its characters (Rust String comparison is UTF-8 byte
lexicographic, which coincides with code-point lexicographic order).
A Rust panic (index out of range, unwrap of None) is modelled as Option.none.
-/

namespace GitStore

/-- One directory member of a tree object, mirroring struct GitTreeLeaf:
mode bytes, path (code points of the Rust String), and the hexadecimal
rendering of the 20 raw digest bytes (code points, as built by the source
with two lowercase hex digits per byte). -/
structure GitTreeLeaf where
  mode : List Nat
  path : List Nat
  sha_hash : List Nat
deriving DecidableEq, Repr

/-- Mirror of struct GitTree. -/
structure GitTree where
  leaves : List GitTreeLeaf
deriving DecidableEq, Repr

/-- Mirror of struct GitBlob. -/
structure GitBlob where
  blob_data : List Nat
deriving DecidableEq, Repr

/-- Mirror of enum GitObjectType. -/
inductive GitObjectType where
  | Blob (b : GitBlob)
  | Tree (t : GitTree)
deriving DecidableEq, Repr

/-- Lowercase hex digit for a value below 16, as a code point
(48 is the code of the digit zero, 97 the code of the letter a). -/
def hexDigit (n : Nat) : Nat := if n < 10 then 48 + n else 87 + n

/-- The two lowercase hex digits of one byte, as the source builds them
with the 02x format specifier. -/
def byteHex (b : Nat) : List Nat := [hexDigit (b / 16), hexDigit (b % 16)]

/-- Value of one hex digit character, as accepted by the hex crate's
decode (digits, lowercase and uppercase letters). -/
def hexVal (c : Nat) : Option Nat :=
  if 48 ≤ c ∧ c ≤ 57 then some (c - 48)
  else if 97 ≤ c ∧ c ≤ 102 then some (c - 87)
  else if 65 ≤ c ∧ c ≤ 70 then some (c - 55)
  else none

/-- Model of hex decode: pairs of hex digit characters to bytes; fails on a
non-digit or an odd number of characters. -/
def hexDecode : List Nat → Option (List Nat)
  | [] => some []
  | c1 :: c2 :: rest => do
      let h1 ← hexVal c1
      let h2 ← hexVal c2
      let r ← hexDecode rest
      some ((16 * h1 + h2) :: r)
  | [_] => none

/-- Model of hex encode over a byte list (lowercase), as used for the
digest string returned by write_object. -/
def hexEncode (bytes : List Nat) : List Nat := (bytes.map byteHex).flatten

/-- UTF-8 encoding of one code point (the encoding Rust uses when a String
is viewed as bytes). -/
def utf8Char (c : Nat) : List Nat :=
  if c < 128 then [c]
  else if c < 2048 then [192 + c / 64, 128 + c % 64]
  else if c < 65536 then [224 + c / 4096, 128 + c / 64 % 64, 128 + c % 64]
  else [240 + c / 262144, 128 + c / 4096 % 64, 128 + c / 64 % 64, 128 + c % 64]

/-- The byte sequence of a Rust String given as code points. -/
def utf8Bytes (s : List Nat) : List Nat := (s.map utf8Char).flatten

/-- Scan a byte list up to the first occurrence of a stop byte; return the
bytes before it and the bytes after it, or none when the stop byte is
absent (the source's scanning loops index past the end and panic then). -/
def breakAt (stop : Nat) : List Nat → Option (List Nat × List Nat)
  | [] => none
  | b :: rest =>
      if b = stop then some ([], rest)
      else (breakAt stop rest).map (fun p => (b :: p.1, p.2))

/-- Mirror of tree_parse_one, parsing one tree entry from the suffix of the
payload that starts at the source's start_index.  The source scans bytes
into a fixed six byte mode array (so a mode field of seven or more bytes
panics on the write at offset six, modelled as none), skips the space,
collects path characters up to the NUL byte (each byte cast to the char of
the same code point), then renders the next twenty bytes as lowercase hex.
Running off the end of the payload panics, modelled as none. -/
def padMode (mode_field : List Nat) : List Nat :=
  mode_field ++ List.replicate (6 - mode_field.length) 0

/-- The source tests mode.len() == 5 to left-pad five digit modes, but the
mode array it tests is a fixed six byte array, so the length is always 6
and the padding branch is dead code. -/
def normalizeMode (mode : List Nat) : List Nat :=
  if mode.length = 5 then 48 :: mode.take 5 else mode

def tree_parse_one (raw_bytes : List Nat) : Option (GitTreeLeaf × List Nat) :=
  match breakAt 32 raw_bytes with
  | none => none
  | some (mode_field, rest1) =>
    if mode_field.length > 6 then none
    else
      match breakAt 0 rest1 with
      | none => none
      | some (path, rest2) =>
        if rest2.length < 20 then none
        else
          some (⟨normalizeMode (padMode mode_field), path,
                 ((rest2.take 20).map byteHex).flatten⟩, rest2.drop 20)

/-- Fuel-indexed parsing loop; the fuel only serves structural recursion
and any fuel at least the payload length gives the loop of the source. -/
def tree_parseAux : Nat → List Nat → Option (List GitTreeLeaf)
  | 0, raw => if raw = [] then some [] else none
  | fuel + 1, raw =>
      if raw = [] then some []
      else
        match tree_parse_one raw with
        | none => none
        | some (leaf, rest) => (tree_parseAux fuel rest).map (fun ls => leaf :: ls)

/-- Mirror of tree_parse: repeatedly parse entries while the index has not
reached the end of the payload. -/
def tree_parse (raw_bytes : List Nat) : Option (List GitTreeLeaf) :=
  tree_parseAux raw_bytes.length raw_bytes

/-- Mirror of tree_leaf_sort_key: the path when the mode starts with the
two characters of the regular-file family, otherwise the path with the
source's appended trailing character (a backslash, code 92, added by the
format string of the source). -/
def tree_leaf_sort_key (leaf : GitTreeLeaf) : List Nat :=
  if leaf.mode.take 2 = [49, 48] then leaf.path else leaf.path ++ [92]

/-- Lexicographic order on code point lists, the order Rust String
comparison induces (UTF-8 byte order coincides with code point order). -/
def lexLe : List Nat → List Nat → Bool
  | [], _ => true
  | _ :: _, [] => false
  | a :: as, b :: bs => a < b || (a = b && lexLe as bs)

/-- Order on tree leaves by sort key, used by the stable sort in
GitTree.serialize (Rust sort_by_key is stable; insertion sort below is the
same stable sort). -/
def leafLe (a b : GitTreeLeaf) : Prop :=
  lexLe (tree_leaf_sort_key a) (tree_leaf_sort_key b) = true

instance : DecidableRel leafLe := fun a b => by
  unfold leafLe; infer_instance

/-- Byte encoding of one sorted leaf inside GitTree.serialize: mode bytes,
a space, the UTF-8 bytes of the path, a NUL, then the twenty raw digest
bytes obtained by hex decoding the stored digest string (the source
unwraps the decode, so an undecodable digest string panics: none). -/
def leafEncode (leaf : GitTreeLeaf) : Option (List Nat) :=
  (hexDecode leaf.sha_hash).map (fun hash_bytes =>
    leaf.mode ++ [32] ++ utf8Bytes leaf.path ++ [0] ++ hash_bytes)

/-- The result vector built by the loop of GitTree.serialize over the
sorted leaves. -/
def encodeLeaves : List GitTreeLeaf → Option (List Nat)
  | [] => some []
  | leaf :: rest => do
      let e ← leafEncode leaf
      let r ← encodeLeaves rest
      some (e ++ r)

/-- Mirror of GitTree.serialize: sort a copy of the leaves by
tree_leaf_sort_key (stable, as Rust sort_by_key), then concatenate the
entry encodings. -/
def GitTree.serialize (t : GitTree) : Option (List Nat) :=
  encodeLeaves (List.insertionSort leafLe t.leaves)

/-- State-passing view of the GitTree.serialize call: the method takes the
tree, sorts a clone of its leaf vector, and leaves the tree itself as it
was; the pair returns the produced bytes together with the tree after the
call. -/
def GitTree.serializeSt (t : GitTree) : Option (List Nat) × GitTree :=
  (GitTree.serialize t, ⟨t.leaves⟩)

/-- Mirror of GitBlob serialize. -/
def GitBlob.serialize (b : GitBlob) : List Nat := b.blob_data

/-- Payload serialization dispatch, as the GitObject trait method. -/
def obj_serialize : GitObjectType → Option (List Nat)
  | GitObjectType.Blob b => some (GitBlob.serialize b)
  | GitObjectType.Tree t => GitTree.serialize t

/-- Kind tag bytes, as the fmt trait method (the ASCII bytes of the words
blob and tree). -/
def obj_fmt : GitObjectType → List Nat
  | GitObjectType.Blob _ => [98, 108, 111, 98]
  | GitObjectType.Tree _ => [116, 114, 101, 101]

/-- Fuel-indexed digit extraction; any fuel above the number works. -/
def natDigitsAux : Nat → Nat → List Nat
  | 0, _ => []
  | fuel + 1, n =>
      if n < 10 then [48 + n] else natDigitsAux fuel (n / 10) ++ [48 + n % 10]

/-- ASCII decimal digits of a natural number, as produced by Rust
to_string on the payload length. -/
def natDigits (n : Nat) : List Nat := natDigitsAux (n + 1) n

/-- Mirror of ls_tree: print the path of every leaf in stored order,
modelled as the list of printed lines. -/
def ls_tree (tree : GitTree) : List (List Nat) :=
  tree.leaves.map GitTreeLeaf.path

/-- Mirror of the envelope construction in write_object: kind tag, space,
decimal ASCII payload length, NUL, payload. -/
def envelope (kind payload : List Nat) : List Nat :=
  kind ++ [32] ++ natDigits payload.length ++ [0] ++ payload

/-- Mirror of Iterator::position: index of the first element satisfying
the predicate. -/
def position (p : Nat → Bool) : List Nat → Option Nat
  | [] => none
  | x :: xs => if p x then some 0 else (position p xs).map (· + 1)

/-- The object-kind dispatch of read_object on the decompressed envelope
bytes: the kind is the bytes before the first space, the payload the bytes
after the first NUL of the buffer; blob and tree dispatch to the codecs,
anything else panics (none), as do a buffer without a space or without a
NUL (unwrap of None). -/
def decode_object (decoded_bytes : List Nat) : Option GitObjectType :=
  match position (fun x => x == 32) decoded_bytes,
        position (fun x => x == 0) decoded_bytes with
  | some iw, some inull =>
      let object_type := decoded_bytes.take iw
      let byte_contents := decoded_bytes.drop (inull + 1)
      if object_type = [98, 108, 111, 98] then
        some (GitObjectType.Blob ⟨byte_contents⟩)
      else if object_type = [116, 114, 101, 101] then
        (tree_parse byte_contents).map (fun ls => GitObjectType.Tree ⟨ls⟩)
      else none
  | _, _ => none

/-! SHA-1, the digest engine used through the sha1 crate: standard padding
to 64 byte blocks and 80-round compression over 32-bit words, all
arithmetic taken modulo 2 to the 32. -/

/-- Rotate a 32-bit word left by s bits. -/
def rotl (s x : Nat) : Nat := ((x <<< s) ||| (x >>> (32 - s))) % 4294967296

/-- Big-endian 32-bit words from a byte list. -/
def bytesToWords : List Nat → List Nat
  | a :: b :: c :: d :: rest => (((a * 256 + b) * 256 + c) * 256 + d) :: bytesToWords rest
  | _ => []

/-- Big-endian bytes of one 32-bit word. -/
def wordBytes (w : Nat) : List Nat :=
  [w / 16777216 % 256, w / 65536 % 256, w / 256 % 256, w % 256]

/-- Message schedule expansion: append k further words, each the left
rotation by one of the xor of the words 3, 8, 14 and 16 positions back. -/
def expandW (acc : List Nat) : Nat → List Nat
  | 0 => acc
  | k + 1 =>
      expandW (acc ++ [rotl 1 (((acc.getD (acc.length - 3) 0) ^^^
        (acc.getD (acc.length - 8) 0)) ^^^ ((acc.getD (acc.length - 14) 0) ^^^
        (acc.getD (acc.length - 16) 0)))]) k

/-- The round function and constant for round i. -/
def sha1FK (i b c d : Nat) : Nat × Nat :=
  if i < 20 then ((b &&& c) ||| ((b ^^^ 4294967295) &&& d), 1518500249)
  else if i < 40 then ((b ^^^ c) ^^^ d, 1859775393)
  else if i < 60 then ((b &&& c) ||| ((b &&& d) ||| (c &&& d)), 2400959708)
  else ((b ^^^ c) ^^^ d, 3395469782)

/-- The 80 compression rounds, consuming the schedule words in order. -/
def sha1Rounds (i : Nat) (ws : List Nat)
    (st : Nat × Nat × Nat × Nat × Nat) : Nat × Nat × Nat × Nat × Nat :=
  match ws with
  | [] => st
  | w :: rest =>
      let (a, b, c, d, e) := st
      let fk := sha1FK i b c d
      let temp := (rotl 5 a + fk.1 + e + fk.2 + w) % 4294967296
      sha1Rounds (i + 1) rest (temp, a, rotl 30 b, c, d)

/-- One 64-byte block folded into the running state. -/
def sha1Block (h : Nat × Nat × Nat × Nat × Nat) (block : List Nat) :
    Nat × Nat × Nat × Nat × Nat :=
  let w := expandW (bytesToWords block) 64
  let (a, b, c, d, e) := sha1Rounds 0 w h
  let (h0, h1, h2, h3, h4) := h
  ((h0 + a) % 4294967296, (h1 + b) % 4294967296, (h2 + c) % 4294967296,
   (h3 + d) % 4294967296, (h4 + e) % 4294967296)

/-- Fuel-indexed 64-byte block splitting; fuel at least the length works. -/
def blocks64Aux : Nat → List Nat → List (List Nat)
  | 0, _ => []
  | fuel + 1, l =>
      if l = [] then [] else l.take 64 :: blocks64Aux fuel (l.drop 64)

/-- Split a padded message into 64-byte blocks. -/
def blocks64 (l : List Nat) : List (List Nat) := blocks64Aux l.length l

/-- Standard SHA-1 padding: a 128 byte, zeros to 56 mod 64, then the bit
length as 8 big-endian bytes. -/
def sha1Pad (msg : List Nat) : List Nat :=
  let len := msg.length
  msg ++ 128 :: List.replicate ((119 - len % 64) % 64) 0 ++
    [len * 8 / 72057594037927936 % 256, len * 8 / 281474976710656 % 256,
     len * 8 / 1099511627776 % 256, len * 8 / 4294967296 % 256] ++
    wordBytes (len * 8 % 4294967296)

/-- SHA-1 digest of a byte list, as twenty bytes. -/
def sha1 (msg : List Nat) : List Nat :=
  let st := (blocks64 (sha1Pad msg)).foldl sha1Block
    (1732584193, 4023233417, 2562383102, 271733878, 3285377520)
  wordBytes st.1 ++ wordBytes st.2.1 ++ wordBytes st.2.2.1 ++
    wordBytes st.2.2.2.1 ++ wordBytes st.2.2.2.2

/-- Lowercase hex digest string (as code points), as hex encode renders
the finalized hash in write_object. -/
def sha1Hex (msg : List Nat) : List Nat := hexEncode (sha1 msg)

/-- The code points of the path prefix .git/objects/ used by the source. -/
def dotGitObjects : List Nat :=
  [46, 103, 105, 116, 47, 111, 98, 106, 101, 99, 116, 115, 47]

/-- Mirror of write_object up to its filesystem effects: serialize the
payload (a panic inside tree serialization propagates as none), build the
envelope, digest it, and derive the storage path from the two leading hex
characters and the remaining ones.  Returns the digest string and the path
the compressed envelope is written to. -/
def write_object (object : GitObjectType) : Option (List Nat × List Nat) := do
  let serialized ← obj_serialize object
  let result := obj_fmt object ++ [32] ++ natDigits serialized.length ++ [0] ++ serialized
  let sha_string := sha1Hex result
  some (sha_string, dotGitObjects ++ sha_string.take 2 ++ [47] ++ sha_string.drop 2)

/-- A well-formed tree leaf: a mode of exactly six octal ASCII digits, an
ASCII path without NUL, and a digest string of forty lowercase hex
characters.  These are the leaves the codec round-trips exactly. -/
def goodLeaf (leaf : GitTreeLeaf) : Prop :=
  leaf.mode.length = 6 ∧ (∀ b ∈ leaf.mode, 48 ≤ b ∧ b ≤ 55) ∧
  (∀ c ∈ leaf.path, c ≠ 0 ∧ c < 128) ∧
  leaf.sha_hash.length = 40 ∧
  (∀ c ∈ leaf.sha_hash, (48 ≤ c ∧ c ≤ 57) ∨ (97 ≤ c ∧ c ≤ 102))

instance : DecidablePred goodLeaf := fun leaf => by
  unfold goodLeaf; infer_instance

/-- A tree payload that is an exact concatenation of complete entries:
each entry is a mode field of at most six non-space bytes, a space, a
NUL-free path, a NUL, and exactly twenty digest bytes, with the final
entry ending exactly at the end of the payload. -/
inductive AlignedTree : List Nat → Prop
  | nil : AlignedTree []
  | cons (m p d rest : List Nat) : m.length ≤ 6 → 32 ∉ m → 0 ∉ p →
      d.length = 20 → AlignedTree rest →
      AlignedTree (m ++ [32] ++ p ++ [0] ++ d ++ rest)

/-! Compression codec.  Modelled from the spec: the source delegates
compression to the flate2 library (a zlib stream at the default level),
whose code is not part of this repository.  The spec requires only a
deflate-family stream codec that is lossless and self-consistent, so the
codec is modelled as a zlib stream made of stored (uncompressed) deflate
blocks: a two byte zlib header, stored blocks of at most 65535 bytes each
carrying a final-block flag, the block length and its ones complement, and
the Adler-32 checksum of the payload, big endian, at the end. -/

/-- Modelled from the spec: Adler-32 checksum used by the zlib stream
format of the compression codec (flate2), which is absent from src. -/
def adler32 (data : List Nat) : Nat :=
  let s := data.foldl
    (fun (ab : Nat × Nat) byte => ((ab.1 + byte) % 65521, (ab.2 + (ab.1 + byte) % 65521) % 65521))
    (1, 0)
  s.2 * 65536 + s.1

/-- The four big-endian checksum bytes closing a zlib stream. -/
def adlerBytes (data : List Nat) : List Nat :=
  let a := adler32 data
  [a / 16777216 % 256, a / 65536 % 256, a / 256 % 256, a % 256]

/-- Fuel-indexed split of the payload into stored-block chunks of at most
65535 bytes (a single chunk, possibly empty, when the payload fits). -/
def chunksAux : Nat → List Nat → List (List Nat)
  | 0, l => [l]
  | fuel + 1, l =>
      if l.length ≤ 65535 then [l] else l.take 65535 :: chunksAux fuel (l.drop 65535)

/-- Chunks of the payload for stored blocks. -/
def chunks (l : List Nat) : List (List Nat) := chunksAux l.length l

/-- The five byte header of one stored deflate block: final flag and block
type bits, the length, low byte first, then its ones complement. -/
def blockHeader (flag : Nat) (c : List Nat) : List Nat :=
  [flag, c.length % 256, c.length / 256,
   255 - c.length % 256, 255 - c.length / 256]

/-- The stored deflate blocks of the chunk list; the last block carries the
final flag. -/
def storedBlocks : List (List Nat) → List Nat
  | [] => []
  | c :: cs => blockHeader (if cs = [] then 1 else 0) c ++ c ++ storedBlocks cs

/-- Modelled from the spec: compress of the compression codec (flate2
zlib, absent from src), as a zlib stream of stored deflate blocks. -/
def compress (x : List Nat) : List Nat :=
  120 :: 1 :: (storedBlocks (chunks x) ++ adlerBytes x)

/-- One inflating pass over the stored blocks: returns the inflated bytes
and the remainder of the stream after the final block.  The fuel bounds
the number of blocks; any fuel at least the stream length works. -/
def inflateBlocks : Nat → List Nat → Option (List Nat × List Nat)
  | 0, _ => none
  | fuel + 1, b :: l0 :: l1 :: n0 :: n1 :: rest =>
      if b / 2 % 4 = 0 ∧ n0 = 255 - l0 ∧ n1 = 255 - l1 ∧
         l0 + 256 * l1 ≤ rest.length then
        if b % 2 = 1 then some (rest.take (l0 + 256 * l1), rest.drop (l0 + 256 * l1))
        else
          (inflateBlocks fuel (rest.drop (l0 + 256 * l1))).map
            (fun pr => (rest.take (l0 + 256 * l1) ++ pr.1, pr.2))
      else none
  | _ + 1, _ => none

/-- Modelled from the spec: decompress of the compression codec (flate2
zlib, absent from src).  Checks the zlib header, inflates the stored
blocks, and verifies the Adler-32 trailer; any malformed stream is the
CorruptStream condition, modelled as none. -/
def decompress (input : List Nat) : Option (List Nat) :=
  match input with
  | h1 :: h2 :: rest =>
      if h1 = 120 ∧ h2 = 1 then do
        let (out, tail) ← inflateBlocks rest.length rest
        if tail = adlerBytes out then some out else none
      else none
  | _ => none

theorem breakAt_some {stop : Nat} : ∀ {l a rest : List Nat},
    breakAt stop l = some (a, rest) →
    l = a ++ stop :: rest ∧ stop ∉ a := by
  intro l
  induction l with
  | nil => intro a rest h; simp [breakAt] at h
  | cons b bs ih =>
      intro a rest h
      by_cases hb : b = stop
      · rw [breakAt, if_pos hb] at h
        have h1 := congrArg (Option.map Prod.fst) h
        have h2 := congrArg (Option.map Prod.snd) h
        simp at h1 h2
        subst h1; subst h2
        simp [hb]
      · rw [breakAt, if_neg hb] at h
        cases h2 : breakAt stop bs with
        | none => rw [h2] at h; simp at h
        | some p =>
            obtain ⟨a2, r2⟩ := p
            rw [h2] at h
            have ha := congrArg (Option.map Prod.fst) h
            have hr := congrArg (Option.map Prod.snd) h
            simp at ha hr
            subst ha; subst hr
            obtain ⟨hl, hna⟩ := ih h2
            refine ⟨by rw [hl]; simp, ?_⟩
            intro hmem
            rcases List.mem_cons.mp hmem with hh | hh
            · exact hb hh.symm
            · exact hna hh

theorem tree_parse_one_shrinks {raw : List Nat} {leaf : GitTreeLeaf}
    {rest : List Nat} (h : tree_parse_one raw = some (leaf, rest)) :
    rest.length < raw.length := by
  unfold tree_parse_one at h
  cases h1 : breakAt 32 raw with
  | none => rw [h1] at h; simp at h
  | some q =>
      obtain ⟨mf, r1⟩ := q
      rw [h1] at h
      dsimp only at h
      by_cases hlen : mf.length > 6
      · rw [if_pos hlen] at h; simp at h
      · rw [if_neg hlen] at h
        cases h2 : breakAt 0 r1 with
        | none => rw [h2] at h; simp at h
        | some q2 =>
            obtain ⟨p, r2⟩ := q2
            rw [h2] at h
            dsimp only at h
            by_cases h20 : r2.length < 20
            · rw [if_pos h20] at h; simp at h
            · rw [if_neg h20] at h
              have hrest := congrArg (Option.map Prod.snd) h
              simp at hrest
              have e1 := (breakAt_some h1).1
              have e2 := (breakAt_some h2).1
              have hlen2 : raw.length = mf.length + 1 + (p.length + 1 + r2.length) := by
                rw [e1, e2]; simp; omega
              rw [← hrest]
              simp
              omega

theorem tree_parseAux_eq_of_le : ∀ {f1 : Nat} {f2 : Nat} {raw : List Nat},
    raw.length ≤ f1 → raw.length ≤ f2 →
    tree_parseAux f1 raw = tree_parseAux f2 raw := by
  intro f1
  induction f1 with
  | zero =>
      intro f2 raw h1 h2
      have : raw = [] := List.eq_nil_of_length_eq_zero (Nat.le_zero.mp h1)
      subst this
      cases f2 <;> simp [tree_parseAux]
  | succ f ih =>
      intro f2 raw h1 h2
      by_cases hr : raw = []
      · subst hr; cases f2 <;> simp [tree_parseAux]
      · cases f2 with
        | zero =>
            exact absurd (List.eq_nil_of_length_eq_zero (Nat.le_zero.mp h2)) hr
        | succ g =>
            simp only [tree_parseAux, if_neg hr]
            cases hp : tree_parse_one raw with
            | none => rfl
            | some p =>
                obtain ⟨leaf, rest⟩ := p
                have hs := tree_parse_one_shrinks hp
                have hrest1 : rest.length ≤ f := by omega
                have hrest2 : rest.length ≤ g := by omega
                dsimp only
                rw [ih hrest1 hrest2]

/-- The defining equation of the parsing loop, free of the fuel. -/
theorem tree_parse_eq (raw : List Nat) :
    tree_parse raw =
      (if raw = [] then some []
       else
         match tree_parse_one raw with
         | none => none
         | some (leaf, rest) => (tree_parse rest).map (fun ls => leaf :: ls)) := by
  by_cases hr : raw = []
  · subst hr; simp [tree_parse, tree_parseAux]
  · have hlen : raw.length ≠ 0 := fun hh => hr (List.eq_nil_of_length_eq_zero hh)
    obtain ⟨k, hk⟩ : ∃ k, raw.length = k + 1 := ⟨raw.length - 1, by omega⟩
    unfold tree_parse
    rw [hk]
    simp only [tree_parseAux, if_neg hr]
    cases hp : tree_parse_one raw with
    | none => rfl
    | some p =>
        obtain ⟨leaf, rest⟩ := p
        have hs := tree_parse_one_shrinks hp
        have h1 : rest.length ≤ k := by omega
        dsimp only
        rw [tree_parseAux_eq_of_le h1 (Nat.le_refl rest.length)]

theorem lexLe_refl : ∀ (l : List Nat), lexLe l l = true := by
  intro l
  induction l with
  | nil => rfl
  | cons a as ih => simp [lexLe, ih]

theorem lexLe_total : ∀ (l1 l2 : List Nat), lexLe l1 l2 = true ∨ lexLe l2 l1 = true := by
  intro l1
  induction l1 with
  | nil => intro l2; left; rfl
  | cons a as ih =>
      intro l2
      cases l2 with
      | nil => right; rfl
      | cons b bs =>
          rcases Nat.lt_trichotomy a b with hab | hab | hab
          · left; simp [lexLe, hab]
          · subst hab
            rcases ih bs with hh | hh
            · left; simp [lexLe, hh]
            · right; simp [lexLe, hh]
          · right; simp [lexLe, hab]

theorem lexLe_trans : ∀ {l1 l2 l3 : List Nat},
    lexLe l1 l2 = true → lexLe l2 l3 = true → lexLe l1 l3 = true := by
  intro l1
  induction l1 with
  | nil => intro l2 l3 _ _; rfl
  | cons a as ih =>
      intro l2 l3 h12 h23
      cases l2 with
      | nil => simp [lexLe] at h12
      | cons b bs =>
          cases l3 with
          | nil => simp [lexLe] at h23
          | cons c cs =>
              simp only [lexLe, Bool.or_eq_true, decide_eq_true_eq,
                Bool.and_eq_true] at h12 h23 ⊢
              rcases h12 with h12 | ⟨hab, h12⟩
              · rcases h23 with h23 | ⟨hbc, h23⟩
                · left; omega
                · left; omega
              · rcases h23 with h23 | ⟨hbc, h23⟩
                · left; omega
                · right; exact ⟨by omega, ih h12 h23⟩

theorem lexLe_antisymm : ∀ {l1 l2 : List Nat},
    lexLe l1 l2 = true → lexLe l2 l1 = true → l1 = l2 := by
  intro l1
  induction l1 with
  | nil =>
      intro l2 h12 h21
      cases l2 with
      | nil => rfl
      | cons b bs => simp [lexLe] at h21
  | cons a as ih =>
      intro l2 h12 h21
      cases l2 with
      | nil => simp [lexLe] at h12
      | cons b bs =>
          simp only [lexLe, Bool.or_eq_true, decide_eq_true_eq,
            Bool.and_eq_true] at h12 h21
          rcases h12 with h12 | ⟨hab, h12⟩
          · rcases h21 with h21 | ⟨hba, h21⟩
            · omega
            · omega
          · rcases h21 with h21 | ⟨hba, h21⟩
            · omega
            · rw [hab, ih h12 h21]

instance : IsTotal GitTreeLeaf leafLe :=
  ⟨fun a b => lexLe_total (tree_leaf_sort_key a) (tree_leaf_sort_key b)⟩

instance : IsTrans GitTreeLeaf leafLe :=
  ⟨fun _ _ _ hab hbc => lexLe_trans hab hbc⟩

instance : IsRefl GitTreeLeaf leafLe :=
  ⟨fun a => lexLe_refl (tree_leaf_sort_key a)⟩

/-- Two sorted lists that are permutations of each other and whose sort
keys are pairwise distinct are equal.  This is the reason any two stable
sorts of permuted inputs agree when no two entries share a sort key. -/
theorem sorted_perm_eq_of_nodup_keys : ∀ {l1 l2 : List GitTreeLeaf},
    l1.Perm l2 → l1.Sorted leafLe → l2.Sorted leafLe →
    (l1.map tree_leaf_sort_key).Nodup → l1 = l2 := by
  intro l1
  induction l1 with
  | nil => intro l2 hp _ _ _; exact (hp.nil_eq).symm ▸ rfl
  | cons a t1 ih =>
      intro l2 hp hs1 hs2 hnd
      cases l2 with
      | nil => exact absurd hp.symm.nil_eq (by simp)
      | cons b t2 =>
          by_cases hab : a = b
          · subst hab
            have hp2 : t1.Perm t2 := hp.cons_inv
            have hnd' : (t1.map tree_leaf_sort_key).Nodup := by
              simp only [List.map_cons, List.nodup_cons] at hnd
              exact hnd.2
            have := ih hp2 (List.Sorted.of_cons hs1) (List.Sorted.of_cons hs2) hnd'
            rw [this]
          · exfalso
            have hbmem : b ∈ a :: t1 := hp.mem_iff.mpr (by simp)
            have hbt1 : b ∈ t1 := by
              rcases List.mem_cons.mp hbmem with hh | hh
              · exact absurd hh.symm hab
              · exact hh
            have hamem : a ∈ b :: t2 := hp.mem_iff.mp (by simp)
            have hat2 : a ∈ t2 := by
              rcases List.mem_cons.mp hamem with hh | hh
              · exact absurd hh hab
              · exact hh
            have h1 : leafLe a b := (List.sorted_cons.mp hs1).1 b hbt1
            have h2 : leafLe b a := (List.sorted_cons.mp hs2).1 a hat2
            have hkey : tree_leaf_sort_key a = tree_leaf_sort_key b :=
              lexLe_antisymm h1 h2
            simp only [List.map_cons, List.nodup_cons] at hnd
            exact hnd.1 (hkey ▸ List.mem_map_of_mem tree_leaf_sort_key hbt1)

/-- Stable sorts of permuted inputs agree when sort keys are pairwise
distinct. -/
theorem insertionSort_eq_of_perm {l1 l2 : List GitTreeLeaf}
    (hp : l1.Perm l2) (hnd : (l1.map tree_leaf_sort_key).Nodup) :
    List.insertionSort leafLe l1 = List.insertionSort leafLe l2 := by
  have p1 := List.perm_insertionSort leafLe l1
  have p2 := List.perm_insertionSort leafLe l2
  have hperm : (List.insertionSort leafLe l1).Perm (List.insertionSort leafLe l2) :=
    (p1.trans hp).trans p2.symm
  have hnd1 : ((List.insertionSort leafLe l1).map tree_leaf_sort_key).Nodup :=
    ((p1.map tree_leaf_sort_key).nodup_iff).mpr hnd
  exact sorted_perm_eq_of_nodup_keys hperm
    (List.sorted_insertionSort leafLe l1) (List.sorted_insertionSort leafLe l2) hnd1

theorem hexVal_hexDigit {n : Nat} (h : n < 16) : hexVal (hexDigit n) = some n := by
  unfold hexDigit hexVal
  by_cases h10 : n < 10
  · rw [if_pos h10, if_pos (by omega)]
    congr 1; omega
  · rw [if_neg h10, if_neg (by omega), if_pos (by omega)]
    congr 1; omega

/-- A lowercase hex character is the rendering of its own value. -/
theorem hexVal_lower {c : Nat}
    (h : (48 ≤ c ∧ c ≤ 57) ∨ (97 ≤ c ∧ c ≤ 102)) :
    ∃ v, hexVal c = some v ∧ v < 16 ∧ hexDigit v = c := by
  unfold hexVal hexDigit
  rcases h with h | h
  · exact ⟨c - 48, by rw [if_pos (by omega)], by omega, by rw [if_pos (by omega)]; omega⟩
  · refine ⟨c - 87, ?_, by omega, by rw [if_neg (by omega)]; omega⟩
    rw [if_neg (by omega), if_pos (by omega)]

/-- Hex decoding a string of lowercase hex digit characters of even length
succeeds, and re-encoding the bytes restores the string. -/
theorem hexDecode_lower : ∀ {s : List Nat}, s.length % 2 = 0 →
    (∀ c ∈ s, (48 ≤ c ∧ c ≤ 57) ∨ (97 ≤ c ∧ c ≤ 102)) →
    ∃ bytes, hexDecode s = some bytes ∧ hexEncode bytes = s ∧
      bytes.length = s.length / 2 ∧ ∀ b ∈ bytes, b < 256 := by
  intro s
  induction s using hexDecode.induct with
  | case1 =>
      intro _ _
      exact ⟨[], rfl, rfl, rfl, by simp⟩
  | case2 c1 c2 rest ih =>
      intro hlen hc
      obtain ⟨v1, hv1, hlt1, hd1⟩ := hexVal_lower (hc c1 (by simp))
      obtain ⟨v2, hv2, hlt2, hd2⟩ := hexVal_lower (hc c2 (by simp))
      obtain ⟨bytes, hdec, henc, hblen, hbnd⟩ := ih
        (by simp at hlen ⊢; omega)
        (fun c hcmem => hc c (by simp [hcmem]))
      refine ⟨(16 * v1 + v2) :: bytes, ?_, ?_, ?_, ?_⟩
      · simp [hexDecode, hv1, hv2, hdec]
      · have e1 : (16 * v1 + v2) / 16 = v1 := by omega
        have e2 : (16 * v1 + v2) % 16 = v2 := by omega
        simp [hexEncode, byteHex, e1, e2, hd1, hd2] at henc ⊢
        exact henc
      · simp at hblen ⊢; omega
      · intro b hb
        rcases List.mem_cons.mp hb with hh | hh
        · omega
        · exact hbnd b hh
  | case3 c =>
      intro hlen _
      simp at hlen

/-- Hex encoding then decoding restores the bytes (used for round trips
that start from raw digest bytes). -/
theorem hexDecode_hexEncode : ∀ {bytes : List Nat}, (∀ b ∈ bytes, b < 256) →
    hexDecode (hexEncode bytes) = some bytes := by
  intro bytes
  induction bytes with
  | nil => intro _; rfl
  | cons b bs ih =>
      intro h
      have hb : b < 256 := h b (by simp)
      have h1 : hexVal (hexDigit (b / 16)) = some (b / 16) := hexVal_hexDigit (by omega)
      have h2 : hexVal (hexDigit (b % 16)) = some (b % 16) := hexVal_hexDigit (by omega)
      have : hexEncode (b :: bs) = hexDigit (b / 16) :: hexDigit (b % 16) :: hexEncode bs := by
        simp [hexEncode, byteHex]
      rw [this]
      simp [hexDecode, h1, h2, ih (fun x hx => h x (by simp [hx]))]
      omega

/-- ASCII code points are their own UTF-8 bytes. -/
theorem utf8Bytes_ascii : ∀ {s : List Nat}, (∀ c ∈ s, c < 128) →
    utf8Bytes s = s := by
  intro s
  induction s with
  | nil => intro _; rfl
  | cons c cs ih =>
      intro h
      have hc : c < 128 := h c (by simp)
      have : utf8Char c = [c] := by unfold utf8Char; rw [if_pos hc]
      simp [utf8Bytes, this]
      simpa [utf8Bytes] using ih (fun x hx => h x (by simp [hx]))

theorem breakAt_append {stop : Nat} : ∀ {a : List Nat} (rest : List Nat),
    stop ∉ a → breakAt stop (a ++ stop :: rest) = some (a, rest) := by
  intro a
  induction a with
  | nil => intro rest _; simp [breakAt]
  | cons x xs ih =>
      intro rest h
      have hx : ¬x = stop := by
        intro hh; exact h (by simp [hh])
      have hxs : stop ∉ xs := fun hh => h (by simp [hh])
      simp only [List.cons_append, breakAt, if_neg hx, List.append_eq,
        ih rest hxs]
      rfl

/-- Parsing one encoded well-formed leaf from the front of a payload gives
back exactly that leaf and leaves the tail untouched. -/
theorem tree_parse_one_encode {leaf : GitTreeLeaf} (hg : goodLeaf leaf) :
    ∃ enc, leafEncode leaf = some enc ∧ enc ≠ [] ∧
      ∀ tail, tree_parse_one (enc ++ tail) = some (leaf, tail) := by
  obtain ⟨hm6, hmode, hpath, hsha40, hshac⟩ := hg
  obtain ⟨hbytes, hdec, henc, hblen, hbnd⟩ :=
    hexDecode_lower (s := leaf.sha_hash) (by omega) hshac
  have hb20 : hbytes.length = 20 := by omega
  refine ⟨leaf.mode ++ [32] ++ utf8Bytes leaf.path ++ [0] ++ hbytes, ?_, by simp, ?_⟩
  · simp [leafEncode, hdec]
  · intro tail
    have hasc : ∀ c ∈ leaf.path, c < 128 := fun c hc => (hpath c hc).2
    have hnn : (0 : Nat) ∉ leaf.path := fun hc => (hpath 0 hc).1 rfl
    have hu : utf8Bytes leaf.path = leaf.path := utf8Bytes_ascii hasc
    have hnsp : (32 : Nat) ∉ leaf.mode := by
      intro hc
      have := hmode 32 hc
      omega
    have e1 : (leaf.mode ++ [32] ++ utf8Bytes leaf.path ++ [0] ++ hbytes) ++ tail =
        leaf.mode ++ 32 :: (leaf.path ++ 0 :: (hbytes ++ tail)) := by
      rw [hu]; simp
    rw [e1]
    unfold tree_parse_one
    rw [breakAt_append _ hnsp]
    dsimp only
    have hng : ¬leaf.mode.length > 6 := by omega
    rw [if_neg hng]
    rw [breakAt_append _ hnn]
    dsimp only
    have hlen2 : (hbytes ++ tail).length ≥ 20 := by simp; omega
    rw [if_neg (by omega)]
    have htake : (hbytes ++ tail).take 20 = hbytes := List.take_left' hb20
    have hdrop : (hbytes ++ tail).drop 20 = tail := List.drop_left' hb20
    rw [htake, hdrop]
    have hpad : padMode leaf.mode = leaf.mode := by
      unfold padMode; rw [hm6]; simp
    have hnorm : normalizeMode (padMode leaf.mode) = leaf.mode := by
      rw [hpad]; unfold normalizeMode; rw [hm6]; simp
    rw [hnorm]
    have hflat : (hbytes.map byteHex).flatten = leaf.sha_hash := henc
    rw [hflat]

/-- Parsing the concatenated encodings of well-formed leaves restores the
leaf list exactly. -/
theorem tree_parse_encodeLeaves : ∀ {L : List GitTreeLeaf},
    (∀ leaf ∈ L, goodLeaf leaf) →
    ∃ bs, encodeLeaves L = some bs ∧ tree_parse bs = some L := by
  intro L
  induction L with
  | nil => intro _; exact ⟨[], rfl, rfl⟩
  | cons leaf rest ih =>
      intro h
      obtain ⟨enc, hle, hne, hparse1⟩ := tree_parse_one_encode (h leaf (by simp))
      obtain ⟨bs, hbs, hparse⟩ := ih (fun x hx => h x (by simp [hx]))
      refine ⟨enc ++ bs, ?_, ?_⟩
      · simp [encodeLeaves, hle, hbs]
      · rw [tree_parse_eq]
        have hnil : ¬(enc ++ bs = []) := by
          intro hh
          exact hne (List.append_eq_nil.mp hh).1
        rw [if_neg hnil, hparse1 bs]
        simp [hparse]

/-- Structure of a successful single-entry parse. -/
theorem tree_parse_one_decomp {raw : List Nat} {leaf : GitTreeLeaf}
    {rest : List Nat} (h : tree_parse_one raw = some (leaf, rest)) :
    ∃ m p r2, raw = m ++ 32 :: (p ++ 0 :: r2) ∧ m.length ≤ 6 ∧
      32 ∉ m ∧ 0 ∉ p ∧ 20 ≤ r2.length ∧ rest = r2.drop 20 := by
  unfold tree_parse_one at h
  cases h1 : breakAt 32 raw with
  | none => rw [h1] at h; simp at h
  | some q =>
      obtain ⟨mf, r1⟩ := q
      rw [h1] at h
      dsimp only at h
      by_cases hlen : mf.length > 6
      · rw [if_pos hlen] at h; simp at h
      · rw [if_neg hlen] at h
        cases h2 : breakAt 0 r1 with
        | none => rw [h2] at h; simp at h
        | some q2 =>
            obtain ⟨p, r2⟩ := q2
            rw [h2] at h
            dsimp only at h
            by_cases h20 : r2.length < 20
            · rw [if_pos h20] at h; simp at h
            · rw [if_neg h20] at h
              have hrest := congrArg (Option.map Prod.snd) h
              simp at hrest
              obtain ⟨e1, hm1⟩ := breakAt_some h1
              obtain ⟨e2, hp1⟩ := breakAt_some h2
              exact ⟨mf, p, r2, by rw [e1, e2], by omega, hm1, hp1,
                by omega, hrest.symm⟩

/-- A payload the parser accepts is an exact concatenation of complete
entries; the parser never drops or misreads trailing bytes. -/
theorem tree_parse_some_aligned : ∀ {raw : List Nat} {leaves : List GitTreeLeaf},
    tree_parse raw = some leaves → AlignedTree raw := by
  have main : ∀ (n : Nat) (raw : List Nat) (leaves : List GitTreeLeaf),
      raw.length ≤ n → tree_parse raw = some leaves → AlignedTree raw := by
    intro n
    induction n with
    | zero =>
        intro raw leaves hl _
        have : raw = [] := List.eq_nil_of_length_eq_zero (Nat.le_zero.mp hl)
        subst this
        exact AlignedTree.nil
    | succ n ih =>
        intro raw leaves hl hp
        by_cases hr : raw = []
        · subst hr; exact AlignedTree.nil
        · rw [tree_parse_eq, if_neg hr] at hp
          cases h1 : tree_parse_one raw with
          | none => rw [h1] at hp; simp at hp
          | some q =>
              obtain ⟨leaf, rest⟩ := q
              rw [h1] at hp
              dsimp only at hp
              cases h2 : tree_parse rest with
              | none => rw [h2] at hp; simp at hp
              | some ls =>
                  have hsh := tree_parse_one_shrinks h1
                  have hrest : AlignedTree rest := ih rest ls (by omega) h2
                  obtain ⟨m, p, r2, he, hm6, hmsp, hpn, h20, hr2⟩ :=
                    tree_parse_one_decomp h1
                  have e2 : raw = m ++ [32] ++ p ++ [0] ++ r2.take 20 ++ rest := by
                    rw [he, hr2]
                    simp only [List.append_assoc, List.cons_append,
                      List.nil_append, List.singleton_append]
                    rw [List.take_append_drop]
                  rw [e2]
                  exact AlignedTree.cons m p (r2.take 20) rest hm6 hmsp hpn
                    (by simp; omega) hrest
  intro raw leaves h
  exact main raw.length raw leaves (Nat.le_refl _) h

/-- The position of the first occurrence of a byte is right after the
longest prefix avoiding it. -/
theorem position_append {stop : Nat} : ∀ {a : List Nat} (rest : List Nat),
    stop ∉ a →
    position (fun x => x == stop) (a ++ stop :: rest) = some a.length := by
  intro a
  induction a with
  | nil => intro rest _; simp [position]
  | cons x xs ih =>
      intro rest h
      have hx : ¬x = stop := fun hh => h (by simp [hh])
      have hxs : stop ∉ xs := fun hh => h (by simp [hh])
      have hxb : (x == stop) = false := by simp [hx]
      simp only [List.cons_append, position, hxb, Bool.false_eq_true, if_false,
        List.append_eq, ih rest hxs]
      rfl

theorem hexEncode_length : ∀ (bytes : List Nat),
    (hexEncode bytes).length = 2 * bytes.length := by
  intro bytes
  induction bytes with
  | nil => rfl
  | cons b bs ih =>
      have : hexEncode (b :: bs) = hexDigit (b / 16) :: hexDigit (b % 16) :: hexEncode bs := by
        simp [hexEncode, byteHex]
      rw [this]
      simp at ih ⊢
      omega

theorem sha1_length (msg : List Nat) : (sha1 msg).length = 20 := by
  unfold sha1 wordBytes
  simp

theorem sha1Hex_length (msg : List Nat) : (sha1Hex msg).length = 40 := by
  unfold sha1Hex
  rw [hexEncode_length, sha1_length]


theorem chunksAux_eq_of_le : ∀ (f1 f2 : Nat) (l : List Nat),
    l.length ≤ f1 + 65535 → l.length ≤ f2 + 65535 →
    chunksAux f1 l = chunksAux f2 l := by
  intro f1
  induction f1 with
  | zero =>
      intro f2 l h1 _
      cases f2 with
      | zero => rfl
      | succ g =>
          simp only [chunksAux]
          rw [if_pos (by omega)]
  | succ f ih =>
      intro f2 l h1 h2
      by_cases hs : l.length ≤ 65535
      · cases f2 with
        | zero => simp only [chunksAux]; rw [if_pos hs]
        | succ g =>
            simp only [chunksAux]
            rw [if_pos hs, if_pos hs]
      · cases f2 with
        | zero => omega
        | succ g =>
            simp only [chunksAux]
            rw [if_neg hs, if_neg hs]
            have hd : (l.drop 65535).length = l.length - 65535 := by simp
            rw [ih g (l.drop 65535) (by omega) (by omega)]

/-- The chunk recursion, fuel-free. -/
theorem chunks_eq (l : List Nat) :
    chunks l = (if l.length ≤ 65535 then [l] else l.take 65535 :: chunks (l.drop 65535)) := by
  by_cases hs : l.length ≤ 65535
  · rw [if_pos hs]
    unfold chunks
    cases hl : l.length with
    | zero => rfl
    | succ k =>
        simp only [chunksAux]
        rw [if_pos (by omega)]
  · rw [if_neg hs]
    unfold chunks
    obtain ⟨k, hk⟩ : ∃ k, l.length = k + 1 := ⟨l.length - 1, by omega⟩
    rw [hk]
    simp only [chunksAux]
    rw [if_neg (by omega)]
    have hd : (l.drop 65535).length = l.length - 65535 := by simp
    rw [chunksAux_eq_of_le k (l.drop 65535).length (l.drop 65535) (by omega) (by omega)]

theorem chunks_join : ∀ (n : Nat) (l : List Nat), l.length ≤ n →
    (chunks l).flatten = l ∧ chunks l ≠ [] ∧ ∀ c ∈ chunks l, c.length ≤ 65535 := by
  intro n
  induction n with
  | zero =>
      intro l hl
      have : l = [] := List.eq_nil_of_length_eq_zero (Nat.le_zero.mp hl)
      subst this
      refine ⟨rfl, by simp [chunks, chunksAux], ?_⟩
      intro c hc
      simp [chunks, chunksAux] at hc
      simp [hc]
  | succ n ih =>
      intro l hl
      rw [chunks_eq]
      by_cases hs : l.length ≤ 65535
      · rw [if_pos hs]
        exact ⟨by simp, by simp, by intro c hc; simp at hc; simp [hc]; omega⟩
      · rw [if_neg hs]
        have hd : (l.drop 65535).length = l.length - 65535 := by simp
        obtain ⟨hj, hne, hb⟩ := ih (l.drop 65535) (by omega)
        refine ⟨?_, by simp, ?_⟩
        · simp only [List.flatten_cons, hj, List.take_append_drop]
        · intro c hc
          rcases List.mem_cons.mp hc with hh | hh
          · simp [hh]
          · exact hb c hh

theorem storedBlocks_length_ge : ∀ (cs : List (List Nat)),
    cs.length ≤ (storedBlocks cs).length := by
  intro cs
  induction cs with
  | nil => simp [storedBlocks]
  | cons c cs ih =>
      simp only [storedBlocks, blockHeader]
      simp at ih ⊢
      omega

theorem inflateBlocks_stored : ∀ (cs : List (List Nat)) (tail : List Nat) (fuel : Nat),
    cs ≠ [] → (∀ c ∈ cs, c.length ≤ 65535) → cs.length ≤ fuel →
    inflateBlocks fuel (storedBlocks cs ++ tail) = some (cs.flatten, tail) := by
  intro cs
  induction cs with
  | nil => intro tail fuel h; exact absurd rfl h
  | cons c cs ih =>
      intro tail fuel _ hb hf
      obtain ⟨f, hff⟩ : ∃ f, fuel = f + 1 := ⟨fuel - 1, by simp at hf; omega⟩
      subst hff
      have hc : c.length ≤ 65535 := hb c (by simp)
      have hl1 : c.length / 256 ≤ 255 := by omega
      have hlen : c.length % 256 + 256 * (c.length / 256) = c.length := by omega
      cases hcs : cs with
      | nil =>
          subst hcs
          have ht : (c ++ tail).take c.length = c := List.take_left' rfl
          have hd : (c ++ tail).drop c.length = tail := List.drop_left' rfl
          simp only [storedBlocks, blockHeader]
          simp only [List.append_nil, List.cons_append, List.nil_append]
          simp only [inflateBlocks]
          simp [hlen, ht, hd]
      | cons c2 cs2 =>
          rw [← hcs]
          have hne2 : cs ≠ [] := by rw [hcs]; simp
          have ht : (c ++ (storedBlocks cs ++ tail)).take c.length = c := List.take_left' rfl
          have hd : (c ++ (storedBlocks cs ++ tail)).drop c.length = storedBlocks cs ++ tail :=
            List.drop_left' rfl
          have hrec := ih tail f hne2 (fun x hx => hb x (by simp [hx])) (by simp at hf; omega)
          simp only [storedBlocks, blockHeader, if_neg hne2]
          simp only [List.cons_append, List.nil_append, List.append_assoc]
          simp only [inflateBlocks]
          simp [hlen, ht, hd, hrec]

/-- Round trip of the modelled codec: decompressing a compressed payload
restores it exactly, for every byte sequence including the empty one. -/
theorem decompress_compress (x : List Nat) : decompress (compress x) = some x := by
  obtain ⟨hj, hne, hb⟩ := chunks_join x.length x (Nat.le_refl _)
  unfold compress decompress
  have hfuel : (chunks x).length ≤ (storedBlocks (chunks x) ++ adlerBytes x).length := by
    have h1 := storedBlocks_length_ge (chunks x)
    simp
    omega
  dsimp only
  rw [if_pos ⟨rfl, rfl⟩]
  rw [inflateBlocks_stored (chunks x) (adlerBytes x) _ hne hb hfuel]
  simp only [Option.bind_eq_bind, Option.some_bind]
  rw [hj, if_pos rfl]

/-! Claims. -/

/-- C1, counterexample: serialization is not permutation invariant for all
entry sequences.  Two distinct regular-file entries with the same path
(hence the same sort key) serialize differently in the two orders, because
the sort is stable and never reorders entries with equal keys. -/
theorem C1_counterexample :
    ([(⟨[49,48,48,54,52,52], [97], List.replicate 40 48⟩ : GitTreeLeaf),
      ⟨[49,48,48,55,53,53], [97], List.replicate 40 48⟩].Perm
     [⟨[49,48,48,55,53,53], [97], List.replicate 40 48⟩,
      ⟨[49,48,48,54,52,52], [97], List.replicate 40 48⟩]) ∧
    GitTree.serialize ⟨[⟨[49,48,48,54,52,52], [97], List.replicate 40 48⟩,
      ⟨[49,48,48,55,53,53], [97], List.replicate 40 48⟩]⟩ ≠
    GitTree.serialize ⟨[⟨[49,48,48,55,53,53], [97], List.replicate 40 48⟩,
      ⟨[49,48,48,54,52,52], [97], List.replicate 40 48⟩]⟩ :=
  ⟨List.Perm.swap _ _ _, by decide⟩

/-- C1, amended: serialize sorts the entries by the sort key (the path for
modes whose first two characters are the regular-file prefix, otherwise
the path with a trailing separator character), and for any two entry
sequences that are permutations of each other whose entries have pairwise
distinct sort keys, serialize produces identical payload bytes. -/
theorem C1_serialize_canonical (l1 l2 : List GitTreeLeaf) (hp : l1.Perm l2)
    (hnd : (l1.map tree_leaf_sort_key).Nodup) :
    GitTree.serialize ⟨l1⟩ = encodeLeaves (List.insertionSort leafLe l1) ∧
    GitTree.serialize ⟨l1⟩ = GitTree.serialize ⟨l2⟩ := by
  refine ⟨rfl, ?_⟩
  unfold GitTree.serialize
  rw [insertionSort_eq_of_perm hp hnd]

/-- Witness for C1: two permuted two-entry lists with distinct sort keys
serialize identically. -/
theorem C1_serialize_canonical_witness :
    ([(⟨[49,48,48,54,52,52], [97], List.replicate 40 48⟩ : GitTreeLeaf),
      ⟨[49,48,48,54,52,52], [98], List.replicate 40 48⟩].Perm
     [⟨[49,48,48,54,52,52], [98], List.replicate 40 48⟩,
      ⟨[49,48,48,54,52,52], [97], List.replicate 40 48⟩]) ∧
    (([(⟨[49,48,48,54,52,52], [97], List.replicate 40 48⟩ : GitTreeLeaf),
       ⟨[49,48,48,54,52,52], [98], List.replicate 40 48⟩].map tree_leaf_sort_key).Nodup) ∧
    (GitTree.serialize ⟨[⟨[49,48,48,54,52,52], [97], List.replicate 40 48⟩,
        ⟨[49,48,48,54,52,52], [98], List.replicate 40 48⟩]⟩ =
      encodeLeaves (List.insertionSort leafLe
        [⟨[49,48,48,54,52,52], [97], List.replicate 40 48⟩,
         ⟨[49,48,48,54,52,52], [98], List.replicate 40 48⟩]) ∧
     GitTree.serialize ⟨[⟨[49,48,48,54,52,52], [97], List.replicate 40 48⟩,
        ⟨[49,48,48,54,52,52], [98], List.replicate 40 48⟩]⟩ =
      GitTree.serialize ⟨[⟨[49,48,48,54,52,52], [98], List.replicate 40 48⟩,
        ⟨[49,48,48,54,52,52], [97], List.replicate 40 48⟩]⟩) :=
  ⟨List.Perm.swap _ _ _, by decide,
   C1_serialize_canonical _ _ (List.Perm.swap _ _ _) (by decide)⟩

/-- C2, counterexample: the round trip is not exact for every NUL-free
path.  A single well-formed entry (six octal digit mode, NUL-free path,
twenty byte digest given as forty hex characters) whose path holds the
non-ASCII code point 233 comes back from parse(serialize) with the path
[195, 169]: the serializer writes the UTF-8 bytes of the path while the
parser reads bytes back as individual code points, so the multisets
differ. -/
theorem C2_counterexample :
    (GitTree.serialize ⟨[⟨[49,48,48,54,52,52], [233], List.replicate 40 48⟩]⟩).bind tree_parse =
      some [⟨[49,48,48,54,52,52], [195,169], List.replicate 40 48⟩] ∧
    ¬ ([(⟨[49,48,48,54,52,52], [195,169], List.replicate 40 48⟩ : GitTreeLeaf)].Perm
       [⟨[49,48,48,54,52,52], [233], List.replicate 40 48⟩]) ∧
    (∀ c ∈ [(233 : Nat)], c ≠ 0) := by
  refine ⟨by decide, ?_, by decide⟩
  intro h
  exact absurd (List.perm_singleton.mp h) (by decide)

/-- C2, amended: for entry sequences with distinct paths whose entries are
well formed in the sense the codec round-trips (mode of exactly six octal
ASCII digits, ASCII NUL-free path, digest string of forty lowercase hex
characters), parsing the serialized payload yields exactly the stable sort
of the input by the canonical sort key: the same multiset as the input, in
canonical sorted order regardless of the input order. -/
theorem C2_roundtrip (L : List GitTreeLeaf) (hg : ∀ leaf ∈ L, goodLeaf leaf)
    (_hnd : (L.map GitTreeLeaf.path).Nodup) :
    ∃ bs, GitTree.serialize ⟨L⟩ = some bs ∧
      tree_parse bs = some (List.insertionSort leafLe L) ∧
      (List.insertionSort leafLe L).Perm L ∧
      (List.insertionSort leafLe L).Sorted leafLe := by
  have hg2 : ∀ leaf ∈ List.insertionSort leafLe L, goodLeaf leaf := by
    intro leaf hmem
    exact hg leaf ((List.perm_insertionSort leafLe L).mem_iff.mp hmem)
  obtain ⟨bs, hbs, hparse⟩ := tree_parse_encodeLeaves hg2
  exact ⟨bs, hbs, hparse, List.perm_insertionSort leafLe L,
    List.sorted_insertionSort leafLe L⟩

/-- Witness for C2: an out-of-order two-entry list of well-formed leaves
round-trips to its sorted form. -/
theorem C2_roundtrip_witness :
    (∀ leaf ∈ [(⟨[49,48,48,54,52,52], [98], List.replicate 40 48⟩ : GitTreeLeaf),
               ⟨[49,48,48,54,52,52], [97], List.replicate 40 48⟩], goodLeaf leaf) ∧
    (([(⟨[49,48,48,54,52,52], [98], List.replicate 40 48⟩ : GitTreeLeaf),
       ⟨[49,48,48,54,52,52], [97], List.replicate 40 48⟩].map GitTreeLeaf.path).Nodup) ∧
    (∃ bs, GitTree.serialize ⟨[⟨[49,48,48,54,52,52], [98], List.replicate 40 48⟩,
        ⟨[49,48,48,54,52,52], [97], List.replicate 40 48⟩]⟩ = some bs ∧
      tree_parse bs = some (List.insertionSort leafLe
        [⟨[49,48,48,54,52,52], [98], List.replicate 40 48⟩,
         ⟨[49,48,48,54,52,52], [97], List.replicate 40 48⟩]) ∧
      (List.insertionSort leafLe
        [⟨[49,48,48,54,52,52], [98], List.replicate 40 48⟩,
         ⟨[49,48,48,54,52,52], [97], List.replicate 40 48⟩]).Perm
        [⟨[49,48,48,54,52,52], [98], List.replicate 40 48⟩,
         ⟨[49,48,48,54,52,52], [97], List.replicate 40 48⟩] ∧
      (List.insertionSort leafLe
        [⟨[49,48,48,54,52,52], [98], List.replicate 40 48⟩,
         ⟨[49,48,48,54,52,52], [97], List.replicate 40 48⟩]).Sorted leafLe) :=
  ⟨by decide, by decide, C2_roundtrip _ (by decide) (by decide)⟩

/-- C3: the claimed mode normalization never happens.  Parsing a payload
whose mode field is the five digits 40000 stores the six bytes
[52,48,48,48,48,0], the five digits followed by a NUL filler, not the
left-padded [48,52,48,48,48,48] (the source tests the length of a fixed
six byte array, so the padding branch is dead); and serializing an entry
whose mode is the five digit 40000 emits those five bytes verbatim, not
040000. -/
theorem C3_mode_not_normalized :
    tree_parse ([52,48,48,48,48] ++ [32] ++ [115,114,99] ++ [0] ++ List.replicate 20 170) =
      some [⟨[52,48,48,48,48,0], [115,114,99], List.replicate 40 97⟩] ∧
    [(52 : Nat),48,48,48,48,0] ≠ [48,52,48,48,48,48] ∧
    GitTree.serialize ⟨[⟨[52,48,48,48,48], [115,114,99], List.replicate 40 48⟩]⟩ =
      some ([52,48,48,48,48] ++ [32] ++ [115,114,99] ++ [0] ++ List.replicate 20 0) :=
  ⟨by decide, by decide, by decide⟩

/-- C4: for every object whose payload serialization succeeds, write
builds the envelope as kind, space, decimal ASCII payload length, NUL,
payload; the returned digest is the hash of the whole envelope; the
storage path is the objects directory, the first two hex characters, a
slash, and the remaining thirty-eight; and the output is a function of
kind and payload only, so identical content gives identical digest and
path. -/
theorem C4_write_object (obj : GitObjectType) (payload : List Nat)
    (h : obj_serialize obj = some payload) :
    write_object obj = some (sha1Hex (envelope (obj_fmt obj) payload),
      dotGitObjects ++ (sha1Hex (envelope (obj_fmt obj) payload)).take 2 ++ [47] ++
        (sha1Hex (envelope (obj_fmt obj) payload)).drop 2) ∧
    (sha1Hex (envelope (obj_fmt obj) payload)).length = 40 ∧
    ((sha1Hex (envelope (obj_fmt obj) payload)).take 2).length = 2 ∧
    ((sha1Hex (envelope (obj_fmt obj) payload)).drop 2).length = 38 ∧
    (∀ obj2, obj_fmt obj2 = obj_fmt obj → obj_serialize obj2 = obj_serialize obj →
      write_object obj2 = write_object obj) := by
  have hlen := sha1Hex_length (envelope (obj_fmt obj) payload)
  refine ⟨?_, hlen, by simp [hlen], by simp [hlen], ?_⟩
  · unfold write_object
    rw [h]
    rfl
  · intro obj2 hf hs
    unfold write_object
    rw [hf, hs]

/-- Witness for C4: writing a two byte blob produces the digest of its
envelope and the derived storage path. -/
theorem C4_write_object_witness :
    obj_serialize (GitObjectType.Blob ⟨[104, 105]⟩) = some [104, 105] ∧
    (write_object (GitObjectType.Blob ⟨[104, 105]⟩) =
      some (sha1Hex (envelope (obj_fmt (GitObjectType.Blob ⟨[104, 105]⟩)) [104, 105]),
        dotGitObjects ++
          (sha1Hex (envelope (obj_fmt (GitObjectType.Blob ⟨[104, 105]⟩)) [104, 105])).take 2 ++
          [47] ++
          (sha1Hex (envelope (obj_fmt (GitObjectType.Blob ⟨[104, 105]⟩)) [104, 105])).drop 2) ∧
    (sha1Hex (envelope (obj_fmt (GitObjectType.Blob ⟨[104, 105]⟩)) [104, 105])).length = 40 ∧
    ((sha1Hex (envelope (obj_fmt (GitObjectType.Blob ⟨[104, 105]⟩)) [104, 105])).take 2).length = 2 ∧
    ((sha1Hex (envelope (obj_fmt (GitObjectType.Blob ⟨[104, 105]⟩)) [104, 105])).drop 2).length = 38 ∧
    (∀ obj2, obj_fmt obj2 = obj_fmt (GitObjectType.Blob ⟨[104, 105]⟩) →
      obj_serialize obj2 = obj_serialize (GitObjectType.Blob ⟨[104, 105]⟩) →
      write_object obj2 = write_object (GitObjectType.Blob ⟨[104, 105]⟩))) :=
  ⟨rfl, C4_write_object _ _ rfl⟩

/-- Any payload accepted by an aligned decomposition is empty or at least
one full entry long. -/
theorem alignedTree_length {raw : List Nat} (h : AlignedTree raw) :
    raw = [] ∨ 22 ≤ raw.length := by
  cases h with
  | nil => exact Or.inl rfl
  | cons m p d rest h1 h2 h3 h4 h5 =>
      right
      simp [h4]
      omega

/-- C5: a tree payload that is not an exact concatenation of complete
entries (one that ends mid-mode, mid-path, or short of the twenty digest
bytes) makes the parser fail rather than silently drop or misread
bytes. -/
theorem C5_truncated_fails (raw : List Nat) (h : ¬ AlignedTree raw) :
    tree_parse raw = none := by
  cases h2 : tree_parse raw with
  | none => rfl
  | some leaves => exact absurd (tree_parse_some_aligned h2) h

/-- Witness for C5: the one byte payload cannot be decomposed into
complete entries, and parsing it fails. -/
theorem C5_truncated_fails_witness :
    ¬ AlignedTree [49] ∧ tree_parse [49] = none := by
  have hna : ¬ AlignedTree [49] := by
    intro h
    rcases alignedTree_length h with h1 | h1
    · simp at h1
    · simp at h1
  exact ⟨hna, C5_truncated_fails [49] hna⟩

/-- C6: on a decompressed envelope the decoder takes the bytes before the
first space as the kind and the bytes after the first NUL after that space
as the payload; kind blob yields a Blob with that payload, kind tree
yields the parsed tree, and any other kind fails with no partial
result. -/
theorem C6_decode_dispatch (kind mid payload : List Nat)
    (hk32 : 32 ∉ kind) (hk0 : 0 ∉ kind) (hm0 : 0 ∉ mid) :
    (kind = [98, 108, 111, 98] →
      decode_object (kind ++ [32] ++ mid ++ [0] ++ payload) =
        some (GitObjectType.Blob ⟨payload⟩)) ∧
    (kind = [116, 114, 101, 101] →
      decode_object (kind ++ [32] ++ mid ++ [0] ++ payload) =
        (tree_parse payload).map (fun ls => GitObjectType.Tree ⟨ls⟩)) ∧
    (kind ≠ [98, 108, 111, 98] → kind ≠ [116, 114, 101, 101] →
      decode_object (kind ++ [32] ++ mid ++ [0] ++ payload) = none) := by
  have h0a : (0 : Nat) ∉ kind ++ 32 :: mid := by
    intro hmem
    rcases List.mem_append.mp hmem with hh | hh
    · exact hk0 hh
    · rcases List.mem_cons.mp hh with hh2 | hh2
      · exact absurd hh2 (by decide)
      · exact hm0 hh2
  have e0 : kind ++ [32] ++ mid ++ [0] ++ payload = (kind ++ 32 :: mid) ++ 0 :: payload := by
    simp
  have hiw : position (fun x => x == 32) ((kind ++ 32 :: mid) ++ 0 :: payload) =
      some kind.length := by
    rw [show (kind ++ 32 :: mid) ++ 0 :: payload = kind ++ 32 :: (mid ++ 0 :: payload) from by simp]
    exact position_append _ hk32
  have hin : position (fun x => x == 0) ((kind ++ 32 :: mid) ++ 0 :: payload) =
      some (kind ++ 32 :: mid).length := position_append _ h0a
  have htake : ((kind ++ 32 :: mid) ++ 0 :: payload).take kind.length = kind := by
    rw [show (kind ++ 32 :: mid) ++ 0 :: payload = kind ++ (32 :: mid ++ 0 :: payload) from by simp]
    exact List.take_left' rfl
  have hdrop : ((kind ++ 32 :: mid) ++ 0 :: payload).drop ((kind ++ 32 :: mid).length + 1) =
      payload := by
    rw [show (kind ++ 32 :: mid) ++ 0 :: payload = ((kind ++ 32 :: mid) ++ [0]) ++ payload from by simp]
    apply List.drop_left'
    simp
    omega
  have main : decode_object (kind ++ [32] ++ mid ++ [0] ++ payload) =
      (if kind = [98, 108, 111, 98] then some (GitObjectType.Blob ⟨payload⟩)
       else if kind = [116, 114, 101, 101] then
         (tree_parse payload).map (fun ls => GitObjectType.Tree ⟨ls⟩)
       else none) := by
    rw [e0]
    unfold decode_object
    rw [hiw, hin]
    dsimp only
    rw [htake, hdrop]
  refine ⟨?_, ?_, ?_⟩
  · intro hk
    rw [main, if_pos hk]
  · intro hk
    have hne : kind ≠ [98, 108, 111, 98] := by rw [hk]; decide
    rw [main, if_neg hne, if_pos hk]
  · intro h1 h2
    rw [main, if_neg h1, if_neg h2]

/-- Witness for C6: a blob envelope with kind blob, length field 7 and a
two byte payload decodes to that blob. -/
theorem C6_decode_dispatch_witness :
    (32 ∉ [(98 : Nat), 108, 111, 98]) ∧ (0 ∉ [(98 : Nat), 108, 111, 98]) ∧
    (0 ∉ [(55 : Nat)]) ∧
    (([(98 : Nat), 108, 111, 98] = [98, 108, 111, 98] →
      decode_object ([98, 108, 111, 98] ++ [32] ++ [55] ++ [0] ++ [104, 105]) =
        some (GitObjectType.Blob ⟨[104, 105]⟩)) ∧
     ([(98 : Nat), 108, 111, 98] = [116, 114, 101, 101] →
      decode_object ([98, 108, 111, 98] ++ [32] ++ [55] ++ [0] ++ [104, 105]) =
        (tree_parse [104, 105]).map (fun ls => GitObjectType.Tree ⟨ls⟩)) ∧
     ([(98 : Nat), 108, 111, 98] ≠ [98, 108, 111, 98] →
      [(98 : Nat), 108, 111, 98] ≠ [116, 114, 101, 101] →
      decode_object ([98, 108, 111, 98] ++ [32] ++ [55] ++ [0] ++ [104, 105]) = none)) :=
  ⟨by decide, by decide, by decide,
   C6_decode_dispatch _ _ _ (by decide) (by decide) (by decide)⟩

set_option maxRecDepth 1000000 in
/-- C7, counterexample: the blob content named by the spec is 16 bytes,
not 17, and the envelope with length field 17 does not hash to the claimed
digest (only the length-16 envelope the code actually builds does). -/
theorem C7_counterexample :
    [(119 : Nat), 104, 97, 116, 32, 105, 115, 32, 117, 112, 44, 32, 100, 111, 99, 63].length = 16 ∧
    envelope [98, 108, 111, 98]
        [119, 104, 97, 116, 32, 105, 115, 32, 117, 112, 44, 32, 100, 111, 99, 63] ≠
      [98, 108, 111, 98, 32, 49, 55, 0,
       119, 104, 97, 116, 32, 105, 115, 32, 117, 112, 44, 32, 100, 111, 99, 63] ∧
    sha1Hex [98, 108, 111, 98, 32, 49, 55, 0,
       119, 104, 97, 116, 32, 105, 115, 32, 117, 112, 44, 32, 100, 111, 99, 63] ≠
      [98, 100, 57, 100, 98, 102, 53, 97, 97, 101, 49, 97, 51, 56, 54, 50, 100, 100, 49, 53,
       50, 54, 55, 50, 51, 50, 52, 54, 98, 50, 48, 50, 48, 54, 101, 53, 102, 99, 51, 55] :=
  ⟨by decide, by decide, by decide⟩

set_option maxRecDepth 1000000 in
/-- C7, amended: the sixteen byte blob reading what is up, doc? hashes
through the envelope blob 16 NUL payload to the digest
bd9dbf5aae1a3862dd1526723246b20206e5fc37, and write_object derives the
storage path from that digest. -/
theorem C7_digest_stability :
    write_object (GitObjectType.Blob
        ⟨[119, 104, 97, 116, 32, 105, 115, 32, 117, 112, 44, 32, 100, 111, 99, 63]⟩) =
      some ([98, 100, 57, 100, 98, 102, 53, 97, 97, 101, 49, 97, 51, 56, 54, 50, 100, 100, 49, 53,
             50, 54, 55, 50, 51, 50, 52, 54, 98, 50, 48, 50, 48, 54, 101, 53, 102, 99, 51, 55],
        dotGitObjects ++ [98, 100] ++ [47] ++
          [57, 100, 98, 102, 53, 97, 97, 101, 49, 97, 51, 56, 54, 50, 100, 100, 49, 53,
           50, 54, 55, 50, 51, 50, 52, 54, 98, 50, 48, 50, 48, 54, 101, 53, 102, 99, 51, 55]) ∧
    envelope [98, 108, 111, 98]
        [119, 104, 97, 116, 32, 105, 115, 32, 117, 112, 44, 32, 100, 111, 99, 63] =
      [98, 108, 111, 98, 32, 49, 54, 0,
       119, 104, 97, 116, 32, 105, 115, 32, 117, 112, 44, 32, 100, 111, 99, 63] :=
  ⟨by decide, by decide⟩

/-- C8: decompressing the compression of any byte sequence, including the
empty one, returns exactly that sequence (codec modelled from the spec as
a stored-block zlib stream, see the compression section). -/
theorem C8_compression_roundtrip (x : List Nat) : decompress (compress x) = some x :=
  decompress_compress x

/-- C9: the parser accepts every NUL-free byte sequence as a path, storing
each raw byte as the code point of the same value (the Rust u8-to-char
cast), so non-ASCII bytes are reinterpreted as Latin-1 code points rather
than rejected or kept as UTF-8. -/
theorem C9_path_latin1 (mode_field p d : List Nat) (hm : mode_field.length ≤ 6)
    (hmsp : 32 ∉ mode_field) (hp : 0 ∉ p) (hd : d.length = 20) :
    tree_parse_one (mode_field ++ 32 :: (p ++ 0 :: d)) =
      some (⟨normalizeMode (padMode mode_field), p, (d.map byteHex).flatten⟩, []) := by
  unfold tree_parse_one
  rw [breakAt_append _ hmsp]
  dsimp only
  rw [if_neg (by omega)]
  rw [breakAt_append _ hp]
  dsimp only
  rw [if_neg (by omega)]
  have ht : d.take 20 = d := by rw [← hd]; simp
  have hdr : d.drop 20 = [] := by rw [← hd]; simp
  rw [ht, hdr]

/-- Witness for C9: a path made of the non-ASCII bytes 233 and 255 parses
unchanged. -/
theorem C9_path_latin1_witness :
    [(49 : Nat), 48, 48, 54, 52, 52].length ≤ 6 ∧ (32 ∉ [(49 : Nat), 48, 48, 54, 52, 52]) ∧
    (0 ∉ [(233 : Nat), 255]) ∧ (List.replicate 20 0).length = 20 ∧
    tree_parse_one ([49, 48, 48, 54, 52, 52] ++ 32 :: ([233, 255] ++ 0 :: List.replicate 20 0)) =
      some (⟨normalizeMode (padMode [49, 48, 48, 54, 52, 52]), [233, 255],
        ((List.replicate 20 0).map byteHex).flatten⟩, []) :=
  ⟨by decide, by decide, by decide, by decide,
   C9_path_latin1 _ _ _ (by decide) (by decide) (by decide) (by decide)⟩

/-- C10: serializing a tree leaves the tree unchanged: the state-passing
view of the call returns the tree with its original leaf sequence, and
listing the tree gives the paths in insertion order, which for an
out-of-order tree differs from the canonical sorted order its
serialization uses. -/
theorem C10_serialize_frame :
    (∀ t : GitTree, (GitTree.serializeSt t).2 = t ∧
      ls_tree (GitTree.serializeSt t).2 = t.leaves.map GitTreeLeaf.path) ∧
    (ls_tree ⟨[⟨[49, 48, 48, 54, 52, 52], [98], List.replicate 40 48⟩,
               ⟨[49, 48, 48, 54, 52, 52], [97], List.replicate 40 48⟩]⟩ = [[98], [97]] ∧
     (List.insertionSort leafLe [⟨[49, 48, 48, 54, 52, 52], [98], List.replicate 40 48⟩,
        ⟨[49, 48, 48, 54, 52, 52], [97], List.replicate 40 48⟩]).map GitTreeLeaf.path =
       [[97], [98]] ∧
     (GitTree.serializeSt ⟨[⟨[49, 48, 48, 54, 52, 52], [98], List.replicate 40 48⟩,
        ⟨[49, 48, 48, 54, 52, 52], [97], List.replicate 40 48⟩]⟩).2.leaves =
       [⟨[49, 48, 48, 54, 52, 52], [98], List.replicate 40 48⟩,
        ⟨[49, 48, 48, 54, 52, 52], [97], List.replicate 40 48⟩]) :=
  ⟨fun t => ⟨rfl, rfl⟩, by decide, by decide, by decide⟩

end GitStore
